import Mathlib

/-!
Shallow embedding of the ITWorld news crawler
(`src/collectors/crawler/news_crawler.py`, class `ITWorldNewsCrawler`).

Strings coming out of the HTML parser are modelled as Lean `String`s;
the title-normalization pipeline, which works character by character,
is modelled on `List Char`.  Python's `str.lower` is modelled by
`Char.toLower` (ASCII case mapping; the site's Korean characters are
case-less, so this matches the behaviour on the crawler's inputs), the
regex classes `\w`/`\s`/`가-힣` by executable character predicates, and
Python dictionaries (insertion ordered) by association lists.
-/

namespace NewsCrawler

/-- The Hangul-syllable range `가-힣` of the regex in
`_clean_title_for_matching`. -/
def isHangulChar (c : Char) : Bool :=
  0xAC00 ≤ c.toNat && c.toNat ≤ 0xD7A3

/-- Model of the regex class `\w` (word character): alphanumeric,
underscore, or a Hangul syllable. -/
def wordChar (c : Char) : Bool :=
  c.isAlphanum || c == '_' || isHangulChar c

/-- A character survives `re.sub(r'[^\w\s가-힣]', '', ·)` iff it is a
word character, whitespace, or a Hangul syllable. -/
def keepChar (c : Char) : Bool :=
  wordChar c || c.isWhitespace

/-- Model of `re.sub(r'\s+', ' ', ·)`: every maximal run of whitespace
characters is replaced by a single space. -/
def collapseWS : List Char → List Char
  | [] => []
  | [c] => if c.isWhitespace then [' '] else [c]
  | c :: c2 :: rest =>
    if c.isWhitespace then
      (if c2.isWhitespace then collapseWS (c2 :: rest)
        else ' ' :: collapseWS (c2 :: rest))
    else c :: collapseWS (c2 :: rest)

/-- Strip leading whitespace (left half of Python `str.strip`). -/
def lstrip (l : List Char) : List Char := l.dropWhile Char.isWhitespace

/-- Strip trailing whitespace (right half of Python `str.strip`). -/
def rstrip (l : List Char) : List Char :=
  (l.reverse.dropWhile Char.isWhitespace).reverse

/-- Python `str.strip()`. -/
def pyStrip (l : List Char) : List Char := rstrip (lstrip l)

/-- `_clean_title_for_matching`: lowercase, drop characters that are not
word characters / whitespace / Hangul, collapse whitespace runs to one
space, strip, and keep the first 50 characters. -/
def cleanTitleForMatching (l : List Char) : List Char :=
  (pyStrip (collapseWS ((l.map Char.toLower).filter keepChar))).take 50

/-- Python `str.split()` (no argument): split on whitespace runs,
dropping empty pieces.  The accumulator holds the current word reversed. -/
def splitWordsAux : List Char → List Char → List (List Char)
  | [], acc => if acc.isEmpty then [] else [acc.reverse]
  | c :: rest, acc =>
    if c.isWhitespace then
      if acc.isEmpty then splitWordsAux rest [] else acc.reverse :: splitWordsAux rest []
    else splitWordsAux rest (c :: acc)

def splitWords (l : List Char) : List (List Char) := splitWordsAux l []

/-- Python's substring test `needle in haystack` (contiguous substring). -/
def substrB : List Char → List Char → Bool
  | n, [] => n.isEmpty
  | n, c :: t => n.isPrefixOf (c :: t) || substrB n t

/-- The exact-match loop of `_extract_news_from_card` (lines 187-191):
first index entry whose key equals the cleaned title. -/
def findExact (clean : List Char) : List (List Char × String) → Option String
  | [] => none
  | (k, u) :: rest => if clean = k then some u else findExact clean rest

/-- The partial-match loop (lines 197-201): first index entry whose key
contains every one of the given words as a substring. -/
def findPartial (w3 : List (List Char)) : List (List Char × String) → Option String
  | [] => none
  | (k, u) :: rest =>
    if w3.all (fun w => substrB w k) then some u else findPartial w3 rest

/-- The full Matcher of `_extract_news_from_card` (lines 186-201): exact
key match first; if none and the cleaned title has at least 3
space-separated words, partial match on its first 3 words. -/
def matchUrl (clean : List Char) (idx : List (List Char × String)) : Option String :=
  match findExact clean idx with
  | some u => some u
  | none =>
    let titleWords := splitWords clean
    if titleWords.length ≥ 3 then findPartial (titleWords.take 3) idx else none

/-!  ## Article records

One `news_item` dictionary.  Optional fields model dictionary keys that
may be absent (`none` = key missing); Python truthiness of a possibly
missing string key `d.get(k)` is `(o.getD "") ≠ ""`.
-/

structure NewsItem where
  title : String
  url : Option String := none
  content_type : Option String := none
  description : Option String := none
  tags : List String := []
  publish_date : Option String := none
  read_time : Option String := none
  author : Option String := none
  image_url : Option String := none
  image_alt : Option String := none
  full_content : Option String := none
  content_length : Option Nat := none
  crawled_at : String := ""
  source : String := "ITWorld"
  deriving Repr, DecidableEq

/-- The duplicate-removal loop of `crawl_main_page_news` (lines
115-121): first-seen-wins on the literal `title` string; `seen` models
the `seen_titles` set. -/
def dedupAux (seen : List String) : List NewsItem → List NewsItem
  | [] => []
  | n :: rest =>
    if n.title ∈ seen then dedupAux seen rest
    else n :: dedupAux (n.title :: seen) rest

def dedupNews (l : List NewsItem) : List NewsItem := dedupAux [] l

/-!  ## Category histogram (`_extract_categories`) -/

/-- One step of `categories[tag] = categories.get(tag, 0) + 1` on an
insertion-ordered association list (Python dict). -/
def bumpTag (acc : List (String × Nat)) (t : String) : List (String × Nat) :=
  if acc.any (fun p => p.1 = t) then
    acc.map (fun p => if p.1 = t then (p.1, p.2 + 1) else p)
  else acc ++ [(t, 1)]

/-- Stable insertion into a list sorted descending by count: the new
pair goes in front of the first entry with a smaller-or-equal count. -/
def insertDesc (p : String × Nat) : List (String × Nat) → List (String × Nat)
  | [] => [p]
  | q :: rest => if q.2 ≤ p.2 then p :: q :: rest else q :: insertDesc p rest

/-- Model of Python's stable `sorted(·, key=lambda x: x[1], reverse=True)`. -/
def sortDescByCount : List (String × Nat) → List (String × Nat)
  | [] => []
  | p :: rest => insertDesc p (sortDescByCount rest)

/-- `_extract_categories` (lines 607-613): count every tag of every
record in a dict, then sort the items descending by count. -/
def extractCategories (l : List NewsItem) : List (String × Nat) :=
  sortDescByCount (l.foldl (fun acc n => n.tags.foldl bumpTag acc) [])

/-- All tags of all records in order (the flattened iteration of the
nested loops in `_extract_categories`). -/
def flatTags (l : List NewsItem) : List String := (l.map NewsItem.tags).flatten

/-- Number of occurrences of `t` in a list of tags. -/
def occCount (t : String) : List String → Nat
  | [] => 0
  | s :: rest => (if s = t then 1 else 0) + occCount t rest

/-!  ## Summary (`_generate_summary`) -/

structure Summary where
  total_articles : Nat
  date_distribution : List (String × Nat)
  content_type_distribution : List (String × Nat)
  latest_date : String
  has_images : Nat
  deriving Repr, DecidableEq

/-- Lexicographic strict comparison of code-point sequences: Python's
`<` on strings. -/
def lexLt : List Char → List Char → Bool
  | [], [] => false
  | [], _ :: _ => true
  | _ :: _, [] => false
  | a :: xs, b :: ys => if a < b then true else if b < a then false else lexLt xs ys

/-- Python's `s < t` on strings. -/
def pyLt (s t : String) : Bool := lexLt s.data t.data

/-- Python `max(l, default='')` on strings: fold keeping the current
maximum, first occurrence winning ties. -/
def pyMaxStr : List String → String
  | [] => ""
  | x :: xs => xs.foldl (fun acc b => if pyLt acc b then b else acc) x

/-- The publish dates the summary's `latest_date` ranges over:
`[n.get('publish_date', '') for n in news_list if n.get('publish_date')]`
(present and non-empty, by Python truthiness). -/
def presentDates (l : List NewsItem) : List String :=
  l.filterMap fun n =>
    match n.publish_date with
    | some d => if d ≠ "" then some d else none
    | none => none

/-- `_generate_summary` (lines 615-638).  For an empty news list the
code returns the empty dictionary `{}`, modelled as `none`. -/
def generateSummary (l : List NewsItem) : Option Summary :=
  if l.isEmpty then none
  else some
    { total_articles := l.length
      date_distribution :=
        l.foldl (fun acc n => bumpTag acc (n.publish_date.getD "Unknown")) []
      content_type_distribution :=
        l.foldl (fun acc n => bumpTag acc (n.content_type.getD "Unknown")) []
      latest_date := pyMaxStr (presentDates l)
      has_images := (l.filter (fun n => n.image_url.getD "" ≠ "")).length }

/-!  ## Content collection (`_collect_article_contents`) -/

/-- Observable outcome of `get_article_content(url)`: that function
always returns a dictionary; on success it carries the joined body text
plus possibly empty `author` / `publish_date` strings, on failure
(transport error surfaced as `_create_error_result`) `success` is false
and the content fields are read back with `.get(..., '')`. -/
structure ArticleContent where
  success : Bool
  content : String := ""
  author : String := ""
  publish_date : String := ""
  deriving Repr, DecidableEq

/-- The body of the per-article loop in `_collect_article_contents`
(lines 320-356), for one record.  A record whose `url` key is missing or
empty is skipped unchanged (`continue` at line 323). -/
def collectOne (fetchArticle : String → ArticleContent) (n : NewsItem) : NewsItem :=
  if n.url.getD "" = "" then n
  else
    let ac := fetchArticle (n.url.getD "")
    if ac.success then
      { n with
        full_content := some ac.content
        content_length := some ac.content.length
        author := if ac.author ≠ "" ∧ n.author.getD "" = "" then some ac.author else n.author
        publish_date :=
          if ac.publish_date ≠ "" ∧ n.publish_date.getD "" = "" then some ac.publish_date
          else n.publish_date }
    else { n with full_content := some "", content_length := some 0 }

/-- `_collect_article_contents`: every record is processed
independently, in order. -/
def collectArticleContents (fetchArticle : String → ArticleContent)
    (l : List NewsItem) : List NewsItem :=
  l.map (collectOne fetchArticle)

/-!  ## Card extraction (`_extract_news_from_card`)

A `Card` records what the BeautifulSoup queries of the extractor see on
one card subtree.  The selector-cascade queries are modelled by their
result lists (one optional text per candidate selector, in cascade
order); `headings` lists the card's descendant elements as
(tag name, stripped text) pairs in document order, so that
`card.find(tag)` is "first pair with that tag name".  The regex scans
for date / read time / author over the info elements and the card text
(lines 253-287) are not needed by any claim and are carried as their
end results `publishDate` / `readTime` / `author`.
-/

structure Card where
  /-- Text of `card.find('h3', class_='card__title') or
  card.find('div', class_='card__title')`, when such an element exists
  (its text may be empty). -/
  cardTitle : Option String := none
  headings : List (String × String) := []
  contentTypeCands : List (Option String) := []
  descriptionCands : List (Option String) := []
  tagsCands : List (List String) := []
  publishDate : Option String := none
  readTime : Option String := none
  author : Option String := none
  /-- `card.find('img')`: (src attribute, data-src attribute, alt). -/
  img : Option (Option String × Option String × String) := none
  deriving Repr, DecidableEq

/-- `card.find(tag)`: text of the first descendant with this tag name. -/
def findTag (tag : String) (hs : List (String × String)) : Option String :=
  (hs.find? (fun e => e.1 = tag)).map (fun e => e.2)

/-- The heading fallback loop (lines 172-178): try `h2`, `h3`, `h4` in
that order; for each, look only at the card's first element of that tag
and accept its text only if longer than 10 characters. -/
def headingLoop (hs : List (String × String)) : List String → Option String
  | [] => none
  | tg :: rest =>
    match findTag tg hs with
    | some txt => if txt.length > 10 then some txt else headingLoop hs rest
    | none => headingLoop hs rest

/-- The title cascade of `_extract_news_from_card` (lines 164-181): the
dedicated title element's text if non-empty, else the heading loop. -/
def extractTitle (c : Card) : Option String :=
  let t0 := c.cardTitle.getD ""
  if t0 ≠ "" then some t0 else headingLoop c.headings ["h2", "h3", "h4"]

/-- Content-type cascade (lines 210-220): first selector that finds an
element wins, its text taken unconditionally. -/
def contentTypeOf (cands : List (Option String)) : Option String :=
  cands.findSome? id

/-- Description cascade (lines 222-236): first selector that finds an
element whose text is longer than 20 characters. -/
def descriptionOf (cands : List (Option String)) : Option String :=
  cands.findSome? fun c =>
    match c with
    | some t => if t.length > 20 then some t else none
    | none => none

/-- Tags cascade (lines 238-251): first selector with a non-empty
element list wins; its non-empty texts are kept. -/
def tagsOf (cands : List (List String)) : List String :=
  match cands.find? (fun ts => ¬ts.isEmpty) with
  | some ts => ts.filter (fun t => t ≠ "")
  | none => []

/-- Image extraction (lines 289-295): `src` or (if falsy) `data-src`;
if that is non-empty, the resolved URL and the alt text. -/
def imageOf (resolve : String → String)
    (img : Option (Option String × Option String × String)) :
    Option String × Option String :=
  match img with
  | none => (none, none)
  | some (src, dataSrc, alt) =>
    let s := if src.getD "" ≠ "" then src.getD "" else dataSrc.getD ""
    if s ≠ "" then (some (resolve s), some alt) else (none, none)

/-- `_extract_news_from_card`: abort with `none` when the title cascade
yields nothing, otherwise build the record, resolving the URL through
the Matcher.  `resolve` stands for `urljoin(self.base_url, ·)` and
`now` for `datetime.now().isoformat()`. -/
def extractNewsFromCard (resolve : String → String) (now : String)
    (c : Card) (idx : List (List Char × String)) : Option NewsItem :=
  match extractTitle c with
  | none => none
  | some t =>
    let img := imageOf resolve c.img
    some
      { title := t
        url := matchUrl (cleanTitleForMatching t.data) idx
        content_type := contentTypeOf c.contentTypeCands
        description := descriptionOf c.descriptionCands
        tags := tagsOf c.tagsCands
        publish_date := c.publishDate
        read_time := c.readTime
        author := c.author
        image_url := img.1
        image_alt := img.2
        crawled_at := now }

/-!  ## Main-page crawl (`crawl_main_page_news`) -/

/-- One `content-row-article` section: an optional main card and the
secondary cards. -/
structure ContentRow where
  mainCard : Option Card := none
  secondaryCards : List Card := []
  deriving Repr, DecidableEq

/-- What parsing the fetched main page yields: article anchors as
(visible text, href) pairs, the main news cards, and the content rows. -/
structure Page where
  anchors : List (String × String) := []
  mainCards : List Card := []
  contentRows : List ContentRow := []
  deriving Repr, DecidableEq

/-- Python-dict insertion with overwrite: an existing key keeps its
position, a new key is appended. -/
def insertLWW (idx : List (List Char × String)) (k : List Char) (v : String) :
    List (List Char × String) :=
  if idx.any (fun p => p.1 = k) then
    idx.map (fun p => if p.1 = k then (k, v) else p)
  else idx ++ [(k, v)]

/-- The link-index build (lines 56-66): anchors with non-empty text
longer than 10 characters, keyed by the cleaned title, last write wins. -/
def buildLinkIndex (resolve : String → String) (anchors : List (String × String)) :
    List (List Char × String) :=
  anchors.foldl
    (fun idx a =>
      if a.1 ≠ "" ∧ a.1.length > 10 then
        insertLWW idx (cleanTitleForMatching a.1.data) (resolve a.2)
      else idx)
    []

/-- Appending a freshly extracted record only when no collected record
has its literal title yet (lines 99 and 108). -/
def addIfNewTitle (acc : List NewsItem) (item : Option NewsItem) : List NewsItem :=
  match item with
  | some n => if acc.any (fun m => m.title = n.title) then acc else acc ++ [n]
  | none => acc

/-- Record collection over one content row (lines 91-109). -/
def collectRow (resolve : String → String) (now : String)
    (idx : List (List Char × String)) (acc : List NewsItem) (row : ContentRow) :
    List NewsItem :=
  let acc1 :=
    match row.mainCard with
    | some c => addIfNewTitle acc (extractNewsFromCard resolve now c idx)
    | none => acc
  row.secondaryCards.foldl
    (fun a c => addIfNewTitle a (extractNewsFromCard resolve now c idx)) acc1

structure CrawlResult where
  success : Bool
  error : Option String := none
  timestamp : String
  source : Option String := none
  url : Option String := none
  total_news : Option Nat := none
  news_list : List NewsItem := []
  categories : Option (List (String × Nat)) := none
  summary : Option Summary := none
  content_included : Option Bool := none
  deriving Repr, DecidableEq

/-- `_create_error_result` (lines 653-660). -/
def createErrorResult (errorMessage : String) (now : String) : CrawlResult :=
  { success := false, error := some errorMessage, timestamp := now }

/-- The retry loop of `_make_request` (lines 640-651): attempts
`0, …, maxRetries-1`, returning the first successful response (the
exponential sleeps between attempts are timing only and carry no data). -/
def requestLoop (fetch : Nat → Option String) (attempt : Nat) : Nat → Option String
  | 0 => none
  | remaining + 1 =>
    match fetch attempt with
    | some r => some r
    | none => requestLoop fetch (attempt + 1) remaining

def makeRequest (fetch : Nat → Option String) (maxRetries : Nat) : Option String :=
  requestLoop fetch 0 maxRetries

/-- Record gathering over the parsed main page (lines 56-113): link
index, then the main cards, then the content rows. -/
def gatherMainPage (resolve : String → String) (now : String) (page : Page) :
    List NewsItem :=
  let idx := buildLinkIndex resolve page.anchors
  let base := page.mainCards.filterMap (fun c => extractNewsFromCard resolve now c idx)
  page.contentRows.foldl (collectRow resolve now idx) base

/-- `crawl_main_page_news`.  `fetch` models the transport (per attempt
number), `parse` the BeautifulSoup pass over the fetched HTML, `resolve`
is `urljoin(base_url, ·)`, `now` the timestamps. -/
def crawlMainPageNews (fetch : Nat → Option String) (maxRetries : Nat)
    (parse : String → Page) (resolve : String → String) (now : String)
    (includeContent : Bool) (fetchArticle : String → ArticleContent) : CrawlResult :=
  match makeRequest fetch maxRetries with
  | none => createErrorResult "메인 페이지에 접근할 수 없습니다." now
  | some html =>
    let page := parse html
    let uniq := dedupNews (gatherMainPage resolve now page)
    let finalNews := if includeContent then collectArticleContents fetchArticle uniq else uniq
    { success := true
      timestamp := now
      source := some "ITWorld 메인 페이지"
      url := some "https://www.itworld.co.kr"
      total_news := some finalNews.length
      news_list := finalNews
      categories := some (extractCategories finalNews)
      summary := generateSummary finalNews
      content_included := some includeContent }

/-!  ## Concrete inputs and auxiliary predicates used by the theorems below -/

def c1Index : List (List Char × String) :=
  [("alpha beta gamma extra".data, "u1"), ("alpha beta gamma".data, "u2")]

def c5Index : List (List Char × String) := [("xx ab cd yy".data, "u9")]

def c3Input : List NewsItem :=
  [{ title := "a", url := some "u1" }, { title := "b" }, { title := "a", url := some "u2" }]

/-- The invariant tying the running tag dictionary to the tags already
processed. -/
def TallyInv (processed : List String) (acc : List (String × Nat)) : Prop :=
  (acc.map Prod.fst).Nodup ∧
    (∀ p ∈ acc, p.2 = occCount p.1 processed) ∧
    (∀ t ∈ processed, ∃ c, (t, c) ∈ acc) ∧
    (∀ p ∈ acc, p.1 ∈ processed)

def c8Input : List NewsItem :=
  [{ title := "x", tags := ["ai", "cloud"] }, { title := "y", tags := ["ai"] },
    { title := "z" }]

def c6Input : List NewsItem :=
  [{ title := "x", publish_date := some "2024-01-05" },
    { title := "y", publish_date := some "2024-03-01" }, { title := "z" }]

def c4NoUrl : NewsItem := { title := "record without url" }

def c4FailFetch : String → ArticleContent := fun _ => { success := false }

def c4Rec1 : NewsItem := { title := "first", url := some "u1" }

def c4Rec2 : NewsItem := { title := "second", url := some "u2" }

def c4Rec3 : NewsItem := { title := "third", url := some "u3" }

def c4Input : List NewsItem := [c4Rec1, c4Rec2, c4Rec3]

def c4Fetch : String → ArticleContent := fun u =>
  if u = "u2" then { success := false } else { success := true, content := "body text" }

/-- The title cascade as the CLAIM words it (refinement definition
following the spec text, for comparison with the code's
`extractTitle`): dedicated card-title element first, otherwise the
first `h2`/`h3`/`h4` heading — in document order — whose text is longer
than 10 characters. -/
def claimTitleOfCard (c : Card) : Option String :=
  match c.cardTitle with
  | some t => some t
  | none =>
    (c.headings.find? fun e =>
        (e.1 = "h2" || e.1 = "h3" || e.1 = "h4") && decide (e.2.length > 10)).map
      (fun e => e.2)

def c9Card : Card :=
  { headings := [("h2", "short"), ("h2", "a sufficiently long heading title")] }

def c9EmptyCard : Card := { headings := [("h2", "tiny"), ("h4", "also small")] }

def c10Card : Card := { cardTitle := some "A sufficiently long title" }

def c10Parse : String → Page := fun _ => { mainCards := [c10Card] }

def c10Item : NewsItem := { title := "A sufficiently long title", crawled_at := "t" }

def c2Input : List Char := List.replicate 49 'a' ++ [' ', 'b']

/-- Adjacent characters are never both whitespace. -/
def RWS (a b : Char) : Prop :=
  ¬(a.isWhitespace = true ∧ b.isWhitespace = true)

/-!  ## Matcher theorems -/

theorem findExact_of_mem (clean : List Char) (u : String) :
    ∀ idx : List (List Char × String), (clean, u) ∈ idx →
      (idx.map Prod.fst).Nodup → findExact clean idx = some u := by
  intro idx
  induction idx with
  | nil => intro h; cases h
  | cons p rest ih =>
    intro hmem hnodup
    obtain ⟨k, v⟩ := p
    rcases List.mem_cons.mp hmem with heq | htail
    · obtain ⟨hk, hv⟩ := Prod.mk.injEq .. ▸ heq
      simp [findExact, hk, hv]
    · by_cases hck : clean = k
      · exfalso
        have hkm : k ∈ rest.map Prod.fst := by
          subst hck
          exact List.mem_map.mpr ⟨(clean, u), htail, rfl⟩
        exact (List.nodup_cons.mp hnodup).1 hkm
      · simpa [findExact, hck] using ih htail (List.nodup_cons.mp hnodup).2

theorem findExact_eq_none (clean : List Char) :
    ∀ idx : List (List Char × String), (∀ p ∈ idx, p.1 ≠ clean) →
      findExact clean idx = none := by
  intro idx
  induction idx with
  | nil => intro _; rfl
  | cons p rest ih =>
    intro h
    have hne : clean ≠ p.1 := fun he => h p (List.mem_cons_self ..) he.symm
    simpa [findExact, hne] using ih fun q hq => h q (List.mem_cons_of_mem _ hq)

/-- C1: if the link index contains a key exactly equal to the cleaned
title, the Matcher returns that key's URL, regardless of which other
keys would satisfy the partial (first-3-words substring) match. -/
theorem matcher_exact_precedence (clean : List Char)
    (idx : List (List Char × String)) (u : String)
    (hmem : (clean, u) ∈ idx) (hnodup : (idx.map Prod.fst).Nodup) :
    matchUrl clean idx = some u := by
  simp [matchUrl, findExact_of_mem clean u idx hmem hnodup]

/-- Witness for C1: the exact key is the second index entry while the
first entry already contains all three title words as substrings. -/
theorem matcher_exact_precedence_witness :
    (("alpha beta gamma".data, "u2") ∈ c1Index ∧
        (c1Index.map Prod.fst).Nodup ∧
        findPartial ((splitWords "alpha beta gamma".data).take 3) c1Index = some "u1") ∧
      matchUrl "alpha beta gamma".data c1Index = some "u2" :=
  ⟨⟨by decide, by decide, by decide⟩,
    matcher_exact_precedence _ c1Index _ (by decide) (by decide)⟩

/-- C5: a cleaned title with fewer than 3 space-separated words never
reaches the partial-match step, so without an exact key match the
Matcher returns no URL. -/
theorem matcher_partial_gate (clean : List Char)
    (idx : List (List Char × String))
    (hw : (splitWords clean).length < 3)
    (hex : ∀ p ∈ idx, p.1 ≠ clean) :
    matchUrl clean idx = none := by
  simp [matchUrl, findExact_eq_none clean idx hex, Nat.not_le.mpr hw]

/-- Witness for C5: both words of the two-word title occur inside the
single index key, yet no URL is returned. -/
theorem matcher_partial_gate_witness :
    ((splitWords "ab cd".data).length < 3 ∧
        (∀ p ∈ c5Index, p.1 ≠ "ab cd".data) ∧
        (splitWords "ab cd".data).all (fun w => substrB w "xx ab cd yy".data) = true) ∧
      matchUrl "ab cd".data c5Index = none :=
  ⟨⟨by decide, by decide, by decide⟩,
    matcher_partial_gate _ c5Index (by decide) (by decide)⟩

/-!  ## Deduplication theorems -/

theorem dedupAux_sublist (seen : List String) :
    ∀ l : List NewsItem, (dedupAux seen l).Sublist l := by
  intro l
  induction l generalizing seen with
  | nil => exact List.Sublist.refl _
  | cons n rest ih =>
    by_cases h : n.title ∈ seen
    · simpa [dedupAux, h] using List.Sublist.cons n (ih seen)
    · simpa [dedupAux, h] using List.Sublist.cons₂ n (ih (n.title :: seen))

theorem mem_dedupAux_not_seen (seen : List String) :
    ∀ l : List NewsItem, ∀ m ∈ dedupAux seen l, m.title ∉ seen := by
  intro l
  induction l generalizing seen with
  | nil => intro m hm; cases hm
  | cons n rest ih =>
    intro m hm
    by_cases h : n.title ∈ seen
    · exact ih seen m (by simpa [dedupAux, h] using hm)
    · rw [dedupAux, if_neg h] at hm
      rcases List.mem_cons.mp hm with rfl | hm'
      · exact h
      · have := ih (n.title :: seen) m hm'
        exact fun hs => this (List.mem_cons_of_mem _ hs)

theorem dedupAux_titles_nodup (seen : List String) :
    ∀ l : List NewsItem, ((dedupAux seen l).map NewsItem.title).Nodup := by
  intro l
  induction l generalizing seen with
  | nil => exact List.nodup_nil
  | cons n rest ih =>
    by_cases h : n.title ∈ seen
    · simpa [dedupAux, h] using ih seen
    · rw [dedupAux, if_neg h]
      refine List.nodup_cons.mpr ⟨?_, ih (n.title :: seen)⟩
      intro hmem
      obtain ⟨m, hm, ht⟩ := List.mem_map.mp hmem
      exact mem_dedupAux_not_seen _ _ m hm (ht ▸ List.mem_cons_self ..)

theorem dedupAux_covers (seen : List String) :
    ∀ l : List NewsItem, ∀ n ∈ l,
      n.title ∈ seen ∨ ∃ m ∈ dedupAux seen l, m.title = n.title := by
  intro l
  induction l generalizing seen with
  | nil => intro n hn; cases hn
  | cons hd rest ih =>
    intro n hn
    by_cases h : hd.title ∈ seen
    · rw [dedupAux, if_pos h]
      rcases List.mem_cons.mp hn with rfl | hn'
      · exact Or.inl h
      · exact ih seen n hn'
    · rw [dedupAux, if_neg h]
      rcases List.mem_cons.mp hn with heq | hn'
      · exact Or.inr ⟨hd, List.mem_cons_self .., by rw [heq]⟩
      · rcases ih (hd.title :: seen) n hn' with hs | ⟨m, hm, ht⟩
        · rcases List.mem_cons.mp hs with he | hs'
          · exact Or.inr ⟨hd, List.mem_cons_self .., he.symm⟩
          · exact Or.inl hs'
        · exact Or.inr ⟨m, List.mem_cons_of_mem _ hm, ht⟩

theorem dedupAux_first_seen (seen : List String) :
    ∀ l : List NewsItem, ∀ m ∈ dedupAux seen l,
      l.find? (fun n => n.title == m.title) = some m := by
  intro l
  induction l generalizing seen with
  | nil => intro m hm; cases hm
  | cons hd rest ih =>
    intro m hm
    by_cases h : hd.title ∈ seen
    · rw [dedupAux, if_pos h] at hm
      have hne : hd.title ≠ m.title := by
        intro he
        exact mem_dedupAux_not_seen seen rest m hm (he ▸ h)
      rw [List.find?_cons_of_neg _ (by simpa using hne), ih seen m hm]
    · rw [dedupAux, if_neg h] at hm
      rcases List.mem_cons.mp hm with rfl | hm'
      · rw [List.find?_cons_of_pos _ (by simp)]
      · have hne : hd.title ≠ m.title := by
          intro he
          exact mem_dedupAux_not_seen _ _ m hm' (he ▸ List.mem_cons_self ..)
        rw [List.find?_cons_of_neg _ (by simpa using hne), ih (hd.title :: seen) m hm']

/-- C3: deduplication yields pairwise distinct literal titles, is a
subsequence of the input (so first-appearance order is preserved), every
input title is represented, and each surviving record is the first
record of the input carrying its title. -/
theorem dedup_spec (l : List NewsItem) :
    ((dedupNews l).map NewsItem.title).Nodup ∧
      (dedupNews l).Sublist l ∧
      (∀ n ∈ l, ∃ m ∈ dedupNews l, m.title = n.title) ∧
      (∀ m ∈ dedupNews l, l.find? (fun n => n.title == m.title) = some m) := by
  refine ⟨dedupAux_titles_nodup [] l, dedupAux_sublist [] l, ?_, dedupAux_first_seen [] l⟩
  intro n hn
  rcases dedupAux_covers [] l n hn with hs | h
  · cases hs
  · exact h

/-- Witness for C3 on a list with a duplicated title. -/
theorem dedup_spec_witness :
    (((dedupNews c3Input).map NewsItem.title).Nodup ∧
        (dedupNews c3Input).Sublist c3Input ∧
        (∀ n ∈ c3Input, ∃ m ∈ dedupNews c3Input, m.title = n.title) ∧
        (∀ m ∈ dedupNews c3Input,
          c3Input.find? (fun n => n.title == m.title) = some m)) ∧
      dedupNews c3Input = [{ title := "a", url := some "u1" }, { title := "b" }] :=
  ⟨dedup_spec c3Input, by decide⟩

/-!  ## Failure-result theorems -/

theorem requestLoop_eq_none (fetch : Nat → Option String) :
    ∀ remaining attempt, (∀ k < remaining, fetch (attempt + k) = none) →
      requestLoop fetch attempt remaining = none := by
  intro remaining
  induction remaining with
  | zero => intro _ _; rfl
  | succ rem ih =>
    intro attempt h
    have h0 : fetch attempt = none := by simpa using h 0 (Nat.succ_pos rem)
    have hrest : ∀ k < rem, fetch (attempt + 1 + k) = none := by
      intro k hk
      have := h (k + 1) (Nat.succ_lt_succ hk)
      simpa [Nat.add_assoc, Nat.add_comm 1 k] using this
    simp [requestLoop, h0, ih (attempt + 1) hrest]

theorem makeRequest_eq_none (fetch : Nat → Option String) (maxRetries : Nat)
    (h : ∀ i < maxRetries, fetch i = none) :
    makeRequest fetch maxRetries = none := by
  refine requestLoop_eq_none fetch maxRetries 0 ?_
  intro k hk
  simpa using h k hk

/-- C7: when every one of the `maxRetries` fetch attempts fails, the
crawl returns a structured result with `success = false`, a non-empty
error string, the call's timestamp, and an empty news list. -/
theorem crawl_failure_result (fetch : Nat → Option String) (maxRetries : Nat)
    (parse : String → Page) (resolve : String → String) (now : String)
    (includeContent : Bool) (fetchArticle : String → ArticleContent)
    (h : ∀ i < maxRetries, fetch i = none) :
    (crawlMainPageNews fetch maxRetries parse resolve now includeContent
        fetchArticle).success = false ∧
      (∃ e, (crawlMainPageNews fetch maxRetries parse resolve now includeContent
          fetchArticle).error = some e ∧ e ≠ "") ∧
      (crawlMainPageNews fetch maxRetries parse resolve now includeContent
        fetchArticle).timestamp = now ∧
      (crawlMainPageNews fetch maxRetries parse resolve now includeContent
        fetchArticle).news_list = [] := by
  have hreq := makeRequest_eq_none fetch maxRetries h
  refine ⟨?_, ⟨"메인 페이지에 접근할 수 없습니다.", ?_, by decide⟩, ?_, ?_⟩ <;>
    simp [crawlMainPageNews, hreq, createErrorResult]

/-- Witness for C7 with a transport that always fails. -/
theorem crawl_failure_result_witness :
    (∀ i < 3, (fun _ : Nat => (none : Option String)) i = none) ∧
      ((crawlMainPageNews (fun _ => none) 3 (fun _ => {}) id "t" false
          (fun _ => { success := false })).success = false ∧
        (∃ e, (crawlMainPageNews (fun _ => none) 3 (fun _ => {}) id "t" false
            (fun _ => { success := false })).error = some e ∧ e ≠ "") ∧
        (crawlMainPageNews (fun _ => none) 3 (fun _ => {}) id "t" false
          (fun _ => { success := false })).timestamp = "t" ∧
        (crawlMainPageNews (fun _ => none) 3 (fun _ => {}) id "t" false
          (fun _ => { success := false })).news_list = []) :=
  ⟨fun _ _ => rfl,
    crawl_failure_result (fun _ => none) 3 (fun _ => {}) id "t" false
      (fun _ => { success := false }) (fun _ _ => rfl)⟩

/-!  ## Category-histogram theorems -/

theorem occCount_append (t : String) :
    ∀ l1 l2 : List String, occCount t (l1 ++ l2) = occCount t l1 + occCount t l2 := by
  intro l1 l2
  induction l1 with
  | nil => simp [occCount]
  | cons s rest ih => simp [occCount, ih, Nat.add_assoc]

theorem occCount_eq_zero (t : String) :
    ∀ l : List String, t ∉ l → occCount t l = 0 := by
  intro l
  induction l with
  | nil => intro _; rfl
  | cons s rest ih =>
    intro h
    have hne : s ≠ t := fun he => h (he ▸ List.mem_cons_self ..)
    simp [occCount, hne, ih fun hm => h (List.mem_cons_of_mem _ hm)]

theorem bumpTag_inv (processed : List String) (acc : List (String × Nat))
    (t : String) (h : TallyInv processed acc) :
    TallyInv (processed ++ [t]) (bumpTag acc t) := by
  obtain ⟨hnd, hcnt, hcov, hkeys⟩ := h
  by_cases hany : acc.any (fun p => p.1 = t) = true
  · rw [TallyInv, bumpTag, if_pos hany]
    have hfst : ∀ p : String × Nat,
        ((if p.1 = t then (p.1, p.2 + 1) else p) : String × Nat).1 = p.1 := by
      intro p; by_cases hp : p.1 = t <;> simp [hp]
    refine ⟨?_, ?_, ?_, ?_⟩
    · rw [List.map_map]
      have : ∀ p ∈ acc, (Prod.fst ∘ fun p : String × Nat =>
          if p.1 = t then (p.1, p.2 + 1) else p) p = Prod.fst p := fun p _ => hfst p
      rw [List.map_congr_left this]
      exact hnd
    · intro q hq
      obtain ⟨p, hp, hfq⟩ := List.mem_map.mp hq
      by_cases hpt : p.1 = t
      · rw [if_pos hpt] at hfq
        rw [← hfq]
        simp only [occCount_append, hcnt p hp]
        simp [occCount, hpt]
      · rw [if_neg hpt] at hfq
        rw [← hfq]
        simp only [occCount_append, hcnt p hp]
        have : ¬t = p.1 := fun he => hpt he.symm
        simp [occCount, this]
    · intro t' ht'
      rcases List.mem_append.mp ht' with hin | hsing
      · obtain ⟨c, hc⟩ := hcov t' hin
        refine ⟨if (t', c).1 = t then c + 1 else c, ?_⟩
        have := List.mem_map_of_mem
          (fun p : String × Nat => if p.1 = t then (p.1, p.2 + 1) else p) hc
        by_cases hct : t' = t
        · simpa [hct] using this
        · simpa [hct] using this
      · obtain ⟨p, hp, hpt⟩ := List.any_eq_true.mp hany
        have hpt' : p.1 = t := by simpa using hpt
        have heq : t' = t := List.mem_singleton.mp hsing
        refine ⟨p.2 + 1, ?_⟩
        have := List.mem_map_of_mem
          (fun p : String × Nat => if p.1 = t then (p.1, p.2 + 1) else p) hp
        simpa [hpt', heq] using this
    · intro q hq
      obtain ⟨p, hp, hfq⟩ := List.mem_map.mp hq
      have : q.1 = p.1 := by rw [← hfq]; exact hfst p
      rw [this]
      exact List.mem_append.mpr (Or.inl (hkeys p hp))
  · have hnot : ∀ p ∈ acc, p.1 ≠ t := by
      intro p hp he
      exact hany (List.any_eq_true.mpr ⟨p, hp, by simpa using he⟩)
    rw [TallyInv, bumpTag, if_neg hany]
    have htnotin : t ∉ processed := by
      intro hin
      obtain ⟨c, hc⟩ := hcov t hin
      exact hnot (t, c) hc rfl
    refine ⟨?_, ?_, ?_, ?_⟩
    · rw [List.map_append]
      refine List.Nodup.append hnd (List.nodup_singleton t) ?_
      intro x hx hx'
      obtain ⟨p, hp, hpx⟩ := List.mem_map.mp hx
      exact hnot p hp (hpx.trans (List.mem_singleton.mp hx'))
    · intro q hq
      rcases List.mem_append.mp hq with hin | hsing
      · rw [occCount_append, hcnt q hin]
        have : ¬t = q.1 := fun he => hnot q hin he.symm
        simp [occCount, this]
      · have heq : q = (t, 1) := List.mem_singleton.mp hsing
        rw [heq, occCount_append, occCount_eq_zero t processed htnotin]
        simp [occCount]
    · intro t' ht'
      rcases List.mem_append.mp ht' with hin | hsing
      · obtain ⟨c, hc⟩ := hcov t' hin
        exact ⟨c, List.mem_append.mpr (Or.inl hc)⟩
      · have heq : t' = t := List.mem_singleton.mp hsing
        exact ⟨1, List.mem_append.mpr (Or.inr (by rw [heq]; exact List.mem_singleton.mpr rfl))⟩
    · intro q hq
      rcases List.mem_append.mp hq with hin | hsing
      · exact List.mem_append.mpr (Or.inl (hkeys q hin))
      · have heq : q = (t, 1) := List.mem_singleton.mp hsing
        exact List.mem_append.mpr (Or.inr (by rw [heq]; exact List.mem_singleton.mpr rfl))

theorem foldl_bumpTag_inv :
    ∀ (ts processed : List String) (acc : List (String × Nat)),
      TallyInv processed acc → TallyInv (processed ++ ts) (ts.foldl bumpTag acc) := by
  intro ts
  induction ts with
  | nil => intro processed acc h; simpa using h
  | cons t rest ih =>
    intro processed acc h
    have := ih (processed ++ [t]) (bumpTag acc t) (bumpTag_inv processed acc t h)
    simpa [List.append_assoc] using this

theorem nested_foldl_eq_flat :
    ∀ (l : List NewsItem) (acc : List (String × Nat)),
      l.foldl (fun acc n => n.tags.foldl bumpTag acc) acc = (flatTags l).foldl bumpTag acc := by
  intro l
  induction l with
  | nil => intro acc; rfl
  | cons n rest ih =>
    intro acc
    simp only [List.foldl_cons, flatTags, List.map_cons, List.flatten_cons, List.foldl_append]
    exact ih (n.tags.foldl bumpTag acc)

theorem insertDesc_perm (p : String × Nat) :
    ∀ l : List (String × Nat), (insertDesc p l).Perm (p :: l) := by
  intro l
  induction l with
  | nil => exact List.Perm.refl _
  | cons q rest ih =>
    rw [insertDesc]
    by_cases h : q.2 ≤ p.2
    · rw [if_pos h]
    · rw [if_neg h]
      exact (List.Perm.cons q ih).trans (List.Perm.swap p q rest)

theorem sortDescByCount_perm :
    ∀ l : List (String × Nat), (sortDescByCount l).Perm l := by
  intro l
  induction l with
  | nil => exact List.Perm.refl _
  | cons p rest ih =>
    exact (insertDesc_perm p (sortDescByCount rest)).trans (List.Perm.cons p ih)

theorem insertDesc_pairwise (p : String × Nat) :
    ∀ l : List (String × Nat),
      l.Pairwise (fun a b => b.2 ≤ a.2) →
      (insertDesc p l).Pairwise (fun a b => b.2 ≤ a.2) := by
  intro l
  induction l with
  | nil => intro _; exact List.pairwise_singleton ..
  | cons q rest ih =>
    intro hp
    obtain ⟨hq, hrest⟩ := List.pairwise_cons.mp hp
    rw [insertDesc]
    by_cases h : q.2 ≤ p.2
    · rw [if_pos h]
      refine List.pairwise_cons.mpr ⟨?_, hp⟩
      intro x hx
      rcases List.mem_cons.mp hx with heq | hin
      · rw [heq]; exact h
      · exact Nat.le_trans (hq x hin) h
    · rw [if_neg h]
      refine List.pairwise_cons.mpr ⟨?_, ih hrest⟩
      intro x hx
      have hx' := (insertDesc_perm p rest).mem_iff.mp hx
      rcases List.mem_cons.mp hx' with heq | hin
      · rw [heq]
        exact Nat.le_of_lt (Nat.lt_of_not_le h)
      · exact hq x hin

theorem sortDescByCount_pairwise :
    ∀ l : List (String × Nat),
      (sortDescByCount l).Pairwise (fun a b => b.2 ≤ a.2) := by
  intro l
  induction l with
  | nil => exact List.Pairwise.nil
  | cons p rest ih => exact insertDesc_pairwise p (sortDescByCount rest) ih

/-- C8: the categories mapping assigns to each tag its number of
occurrences across all records' flattened tag lists, lists exactly the
occurring tags (with no key repeated), is ordered descending by count,
and on tag lists `[["ai","cloud"],["ai"],[]]` equals
`[("ai",2),("cloud",1)]`. -/
theorem extract_categories_spec (l : List NewsItem) :
    ((extractCategories l).map Prod.fst).Nodup ∧
      (∀ p ∈ extractCategories l, p.2 = occCount p.1 (flatTags l)) ∧
      (∀ t ∈ flatTags l, ∃ c, (t, c) ∈ extractCategories l) ∧
      (extractCategories l).Pairwise (fun a b => b.2 ≤ a.2) ∧
      extractCategories c8Input = [("ai", 2), ("cloud", 1)] := by
  have hbase : TallyInv [] [] := by
    refine ⟨List.nodup_nil, ?_, ?_, ?_⟩ <;> intro x hx <;> cases hx
  have hinv : TallyInv (flatTags l) ((flatTags l).foldl bumpTag []) := by
    simpa using foldl_bumpTag_inv (flatTags l) [] [] hbase
  obtain ⟨hnd, hcnt, hcov, _⟩ := hinv
  have hperm : (extractCategories l).Perm ((flatTags l).foldl bumpTag []) := by
    rw [extractCategories, nested_foldl_eq_flat]
    exact sortDescByCount_perm _
  refine ⟨?_, ?_, ?_, ?_, by decide⟩
  · exact (hperm.map Prod.fst).nodup_iff.mpr hnd
  · intro p hp
    exact hcnt p (hperm.mem_iff.mp hp)
  · intro t ht
    obtain ⟨c, hc⟩ := hcov t ht
    exact ⟨c, hperm.mem_iff.mpr hc⟩
  · rw [extractCategories, nested_foldl_eq_flat]
    exact sortDescByCount_pairwise _

/-- Witness for C8: the count recorded for `"ai"` really is its number
of occurrences among the example's flattened tags. -/
theorem extract_categories_spec_witness :
    (("ai", 2) : String × Nat) ∈ extractCategories c8Input ∧
      (("ai", 2) : String × Nat).2 = occCount "ai" (flatTags c8Input) :=
  ⟨by decide, (extract_categories_spec c8Input).2.1 ("ai", 2) (by decide)⟩

/-!  ## Summary / latest-date theorems

`lexLt` is the lexicographic comparison of code-point sequences, which
is Python's `<` on strings; the claim's "maximum under lexicographic
string comparison" is phrased through it.
-/

theorem lexLt_irrefl : ∀ xs : List Char, lexLt xs xs = false := by
  intro xs
  induction xs with
  | nil => rfl
  | cons a rest ih => simp [lexLt, lt_irrefl, ih]

theorem lexLt_trans :
    ∀ xs ys zs : List Char, lexLt xs ys = true → lexLt ys zs = true →
      lexLt xs zs = true := by
  intro xs
  induction xs with
  | nil =>
    intro ys zs hxy hyz
    cases ys with
    | nil => cases hxy
    | cons b bs =>
      cases zs with
      | nil => cases hyz
      | cons c cs => rfl
  | cons a as ih =>
    intro ys zs hxy hyz
    cases ys with
    | nil => cases hxy
    | cons b bs =>
      cases zs with
      | nil => cases hyz
      | cons c cs =>
        rw [lexLt] at hxy hyz ⊢
        by_cases hab : a < b
        · rw [if_pos hab] at hxy
          by_cases hbc : b < c
          · rw [if_pos (lt_trans hab hbc)]
          · rw [if_neg hbc] at hyz
            by_cases hcb : c < b
            · rw [if_pos hcb] at hyz; cases hyz
            · have hbc' : b = c := le_antisymm (not_lt.mp hcb) (not_lt.mp hbc)
              rw [if_pos (hbc' ▸ hab)]
        · rw [if_neg hab] at hxy
          by_cases hba : b < a
          · rw [if_pos hba] at hxy; cases hxy
          · rw [if_neg hba] at hxy
            have hab' : a = b := le_antisymm (not_lt.mp hba) (not_lt.mp hab)
            by_cases hbc : b < c
            · rw [if_pos (hab' ▸ hbc)]
            · rw [if_neg hbc] at hyz
              by_cases hcb : c < b
              · rw [if_pos hcb] at hyz; cases hyz
              · rw [if_neg hcb] at hyz
                rw [if_neg (hab' ▸ hbc), if_neg (hab' ▸ hcb)]
                exact ih bs cs hxy hyz

theorem lexLt_total :
    ∀ xs ys : List Char, lexLt xs ys = true ∨ xs = ys ∨ lexLt ys xs = true := by
  intro xs
  induction xs with
  | nil =>
    intro ys
    cases ys with
    | nil => exact Or.inr (Or.inl rfl)
    | cons b bs => exact Or.inl rfl
  | cons a as ih =>
    intro ys
    cases ys with
    | nil => exact Or.inr (Or.inr rfl)
    | cons b bs =>
      rcases lt_trichotomy a b with hab | hab | hab
      · exact Or.inl (by rw [lexLt, if_pos hab])
      · subst hab
        rcases ih bs with h | h | h
        · exact Or.inl (by rw [lexLt, if_neg (lt_irrefl a), if_neg (lt_irrefl a)]; exact h)
        · exact Or.inr (Or.inl (by rw [h]))
        · exact Or.inr (Or.inr (by rw [lexLt, if_neg (lt_irrefl a), if_neg (lt_irrefl a)]; exact h))
      · exact Or.inr (Or.inr (by rw [lexLt, if_pos hab]))

theorem pyLt_trans (s t u : String) (h1 : pyLt s t = true) (h2 : pyLt t u = true) :
    pyLt s u = true :=
  lexLt_trans s.data t.data u.data h1 h2

theorem pyLt_total (s t : String) :
    pyLt s t = true ∨ s = t ∨ pyLt t s = true := by
  rcases lexLt_total s.data t.data with h | h | h
  · exact Or.inl h
  · exact Or.inr (Or.inl (String.toList_inj.mp h))
  · exact Or.inr (Or.inr h)

theorem foldlMax_spec :
    ∀ (xs : List String) (a : String),
      (xs.foldl (fun acc b => if pyLt acc b then b else acc) a = a ∨
          xs.foldl (fun acc b => if pyLt acc b then b else acc) a ∈ xs) ∧
        pyLt (xs.foldl (fun acc b => if pyLt acc b then b else acc) a) a = false ∧
        ∀ b ∈ xs, pyLt (xs.foldl (fun acc b => if pyLt acc b then b else acc) a) b = false := by
  intro xs
  induction xs with
  | nil =>
    intro a
    exact ⟨Or.inl rfl, lexLt_irrefl a.data, fun b hb => absurd hb (List.not_mem_nil b)⟩
  | cons x rest ih =>
    intro a
    simp only [List.foldl_cons]
    by_cases hax : pyLt a x = true
    · rw [if_pos hax]
      obtain ⟨hmem, hma, hall⟩ := ih x
      refine ⟨?_, ?_, ?_⟩
      · rcases hmem with h | h
        · exact Or.inr (List.mem_cons.mpr (Or.inl h))
        · exact Or.inr (List.mem_cons_of_mem _ h)
      · by_cases hcontra : pyLt (rest.foldl (fun acc b => if pyLt acc b then b else acc) x) a = true
        · exact absurd (pyLt_trans _ _ _ hcontra hax) (by rw [hma]; exact Bool.false_ne_true)
        · exact Bool.not_eq_true _ ▸ hcontra
      · intro b hb
        rcases List.mem_cons.mp hb with heq | hb'
        · rw [heq]; exact hma
        · exact hall b hb'
    · rw [if_neg hax]
      have hax' : pyLt a x = false := Bool.not_eq_true _ ▸ hax
      obtain ⟨hmem, hma, hall⟩ := ih a
      refine ⟨?_, hma, ?_⟩
      · rcases hmem with h | h
        · exact Or.inl h
        · exact Or.inr (List.mem_cons_of_mem _ h)
      · intro b hb
        rcases List.mem_cons.mp hb with heq | hb'
        · rw [heq]
          by_cases hcontra :
              pyLt (rest.foldl (fun acc b => if pyLt acc b then b else acc) a) x = true
          · exfalso
            rcases pyLt_total (rest.foldl (fun acc b => if pyLt acc b then b else acc) a) a
              with hlt | heq2 | hgt
            · rw [hma] at hlt; cases hlt
            · rw [heq2] at hcontra
              rw [hcontra] at hax'; cases hax'
            · have := pyLt_trans _ _ _ hgt hcontra
              rw [this] at hax'; cases hax'
          · exact Bool.not_eq_true _ ▸ hcontra
        · exact hall b hb'

/-- C6 counterexample: for the empty record list the claim demands
`latest_date = ""`, but `_generate_summary` returns the empty dictionary
`{}`, which carries no `latest_date` at all. -/
theorem generate_summary_empty_counterexample :
    ¬ ∃ s, generateSummary ([] : List NewsItem) = some s ∧ s.latest_date = "" := by
  rintro ⟨s, hs, _⟩
  simp [generateSummary] at hs

/-- C6 (amended): for every NON-EMPTY list of records the summary
exists and its `latest_date` is the maximum, under lexicographic string
comparison (`pyLt`), of the present (non-empty) `publish_date` values —
the empty string when no record has one. -/
theorem generate_summary_latest_date (l : List NewsItem) (h : l ≠ []) :
    ∃ s, generateSummary l = some s ∧
      (∀ d ∈ presentDates l, pyLt s.latest_date d = false) ∧
      (presentDates l = [] → s.latest_date = "") ∧
      (presentDates l ≠ [] → s.latest_date ∈ presentDates l) := by
  have hne : ¬l.isEmpty := by
    cases l with
    | nil => exact absurd rfl h
    | cons a t => simp
  refine ⟨_, by rw [generateSummary, if_neg hne], ?_, ?_, ?_⟩
  · intro d hd
    show pyLt (pyMaxStr (presentDates l)) d = false
    rcases hlist : presentDates l with _ | ⟨x, xs⟩
    · rw [hlist] at hd; cases hd
    · rw [hlist] at hd
      obtain ⟨_, hma, hall⟩ := foldlMax_spec xs x
      rcases List.mem_cons.mp hd with heq | hd'
      · rw [heq]; exact hma
      · exact hall d hd'
  · intro hnil
    show pyMaxStr (presentDates l) = ""
    rw [hnil]; rfl
  · intro hnonnil
    show pyMaxStr (presentDates l) ∈ presentDates l
    rcases hlist : presentDates l with _ | ⟨x, xs⟩
    · exact absurd hlist hnonnil
    · obtain ⟨hmem, _, _⟩ := foldlMax_spec xs x
      show xs.foldl (fun acc b => if pyLt acc b then b else acc) x ∈ x :: xs
      rcases hmem with heq | hin
      · rw [heq]; exact List.mem_cons_self ..
      · exact List.mem_cons_of_mem _ hin

/-- Witness for C6 (amended): on the spec's example dates the latest
date is `2024-03-01`. -/
theorem generate_summary_latest_date_witness :
    (c6Input ≠ [] ∧
        (generateSummary c6Input).map Summary.latest_date = some "2024-03-01") ∧
      ∃ s, generateSummary c6Input = some s ∧
        (∀ d ∈ presentDates c6Input, pyLt s.latest_date d = false) ∧
        (presentDates c6Input = [] → s.latest_date = "") ∧
        (presentDates c6Input ≠ [] → s.latest_date ∈ presentDates c6Input) :=
  ⟨⟨by decide, by decide⟩, generate_summary_latest_date c6Input (by decide)⟩

/-!  ## Content-collection theorems -/

/-- C4 counterexample: a record with no URL is skipped by `continue`
(line 323), so after content collection it still has NO
`content_length` / `full_content` keys — not `content_length = 0` and
empty content as the claim states. -/
theorem collect_contents_no_url_counterexample :
    collectArticleContents c4FailFetch [c4NoUrl] = [c4NoUrl] ∧
      c4NoUrl.content_length ≠ some 0 ∧ c4NoUrl.full_content ≠ some "" :=
  ⟨rfl, by decide, by decide⟩

/-- C4 (amended): content collection processes each record
independently and in place: a record whose URL is missing or empty is
returned UNCHANGED (its content fields stay absent); a record whose
per-article fetch fails gets `full_content = ""` and
`content_length = 0` with every other field unchanged and without
aborting the batch; a record whose fetch succeeds gets the fetched body
and its length. -/
theorem collect_contents_spec (fetchArticle : String → ArticleContent)
    (l : List NewsItem) :
    (collectArticleContents fetchArticle l).length = l.length ∧
      ∀ i : Nat, ∀ n : NewsItem, l[i]? = some n →
        ∃ m, (collectArticleContents fetchArticle l)[i]? = some m ∧
          (n.url.getD "" = "" → m = n) ∧
          (∀ u, n.url = some u → u ≠ "" → (fetchArticle u).success = false →
            m.full_content = some "" ∧ m.content_length = some 0 ∧
            m.title = n.title ∧ m.url = n.url ∧ m.tags = n.tags ∧
            m.publish_date = n.publish_date ∧ m.content_type = n.content_type ∧
            m.author = n.author ∧ m.image_url = n.image_url ∧
            m.description = n.description ∧ m.read_time = n.read_time ∧
            m.image_alt = n.image_alt) ∧
          (∀ u, n.url = some u → u ≠ "" → (fetchArticle u).success = true →
            m.full_content = some (fetchArticle u).content ∧
            m.content_length = some (fetchArticle u).content.length ∧
            m.title = n.title ∧ m.url = n.url ∧ m.tags = n.tags) := by
  refine ⟨by simp [collectArticleContents], ?_⟩
  intro i n hn
  refine ⟨collectOne fetchArticle n, ?_, ?_, ?_, ?_⟩
  · rw [collectArticleContents, List.getElem?_map, hn, Option.map_some']
  · intro h
    simp [collectOne, h]
  · intro u hu hne hf
    have hget : n.url.getD "" = u := by rw [hu]; rfl
    simp [collectOne, hget, hne, hf]
  · intro u hu hne hf
    have hget : n.url.getD "" = u := by rw [hu]; rfl
    simp [collectOne, hget, hne, hf]

/-- Witness for C4 (amended), on the spec's three-record scenario where
the middle fetch fails: the failing record gets empty content and
`content_length = 0`, the first record gets the fetched body, and the
batch keeps all three records. -/
theorem collect_contents_spec_witness :
    ((collectArticleContents c4Fetch c4Input).length = c4Input.length ∧
        c4Input[1]? = some c4Rec2 ∧ c4Rec2.url = some "u2" ∧
        (c4Fetch "u2").success = false) ∧
      ∃ m, (collectArticleContents c4Fetch c4Input)[1]? = some m ∧
        m.full_content = some "" ∧ m.content_length = some 0 ∧
        m.title = c4Rec2.title ∧ m.url = c4Rec2.url ∧ m.tags = c4Rec2.tags ∧
        m.publish_date = c4Rec2.publish_date ∧
        m.content_type = c4Rec2.content_type ∧ m.author = c4Rec2.author ∧
        m.image_url = c4Rec2.image_url ∧ m.description = c4Rec2.description ∧
        m.read_time = c4Rec2.read_time ∧ m.image_alt = c4Rec2.image_alt := by
  refine ⟨⟨(collect_contents_spec c4Fetch c4Input).1, by decide, by decide, by decide⟩, ?_⟩
  obtain ⟨m, hm, -, hfail, -⟩ := (collect_contents_spec c4Fetch c4Input).2 1 c4Rec2 (by decide)
  exact ⟨m, hm, hfail "u2" (by decide) (by decide) (by decide)⟩

/-!  ## Title-cascade theorems -/

/-- C9 counterexample: the code inspects only the FIRST element of each
heading tag (`card.find(tag)`), so a card whose first `h2` is short but
whose second `h2` is long yields NO record, while the claim's "first
h2/h3/h4 heading whose text is longer than 10 characters" would title
it from the second `h2`. -/
theorem extract_title_cascade_counterexample :
    extractNewsFromCard id "" c9Card [] = none ∧
      claimTitleOfCard c9Card = some "a sufficiently long heading title" :=
  ⟨by decide, by decide⟩

theorem headingLoop_eq_none_iff (hs : List (String × String)) :
    ∀ tags : List String,
      headingLoop hs tags = none ↔
        ∀ tg ∈ tags, ∀ txt, findTag tg hs = some txt → txt.length ≤ 10 := by
  intro tags
  induction tags with
  | nil => simp [headingLoop]
  | cons tg rest ih =>
    rw [headingLoop]
    cases hft : findTag tg hs with
    | none =>
      simp only []
      rw [ih]
      constructor
      · intro h tg' htg' txt htxt
        rcases List.mem_cons.mp htg' with heq | hmem
        · rw [heq, hft] at htxt; cases htxt
        · exact h tg' hmem txt htxt
      · intro h tg' hmem txt htxt
        exact h tg' (List.mem_cons_of_mem _ hmem) txt htxt
    | some txt =>
      simp only []
      by_cases hlen : txt.length > 10
      · rw [if_pos hlen]
        constructor
        · intro h; cases h
        · intro h
          exact absurd (h tg (List.mem_cons_self ..) txt hft) (Nat.not_le.mpr hlen)
      · rw [if_neg hlen, ih]
        constructor
        · intro h tg' htg' txt' htxt'
          rcases List.mem_cons.mp htg' with heq | hmem
          · rw [heq, hft] at htxt'
            cases htxt'
            exact Nat.not_lt.mp hlen
          · exact h tg' hmem txt' htxt'
        · intro h tg' hmem txt' htxt'
          exact h tg' (List.mem_cons_of_mem _ hmem) txt' htxt'

/-- C9 (amended): the extractor returns NO record exactly when the
dedicated card-title element is missing or empty-texted AND, for each
of the tags `h2`, `h3`, `h4`, the card's first element of that tag is
missing or has text of at most 10 characters; when it does return a
record, the record's title is the cascade's result — the dedicated
element's text whenever that is non-empty. -/
theorem extract_news_title_cascade (resolve : String → String) (now : String)
    (c : Card) (idx : List (List Char × String)) :
    (extractNewsFromCard resolve now c idx = none ↔
        (c.cardTitle.getD "" = "" ∧
          ∀ tg ∈ (["h2", "h3", "h4"] : List String), ∀ txt,
            findTag tg c.headings = some txt → txt.length ≤ 10)) ∧
      ∀ n, extractNewsFromCard resolve now c idx = some n →
        extractTitle c = some n.title ∧
        (c.cardTitle.getD "" ≠ "" → n.title = c.cardTitle.getD "") := by
  constructor
  · rw [extractNewsFromCard]
    by_cases h0 : c.cardTitle.getD "" = ""
    · rw [extractTitle, if_neg (fun hne => hne h0)]
      cases hloop : headingLoop c.headings ["h2", "h3", "h4"] with
      | none =>
        simp only []
        constructor
        · intro _
          exact ⟨h0, (headingLoop_eq_none_iff c.headings _).mp hloop⟩
        · intro _; trivial
      | some t =>
        simp only []
        constructor
        · intro h; cases h
        · rintro ⟨-, hall⟩
          rw [(headingLoop_eq_none_iff c.headings _).mpr hall] at hloop
          cases hloop
    · rw [extractTitle, if_pos h0]
      simp only []
      constructor
      · intro h; cases h
      · rintro ⟨he, -⟩
        exact absurd he h0
  · intro n hn
    rw [extractNewsFromCard] at hn
    cases ht : extractTitle c with
    | none => rw [ht] at hn; cases hn
    | some t =>
      rw [ht] at hn
      simp only [Option.some.injEq] at hn
      have htitle : n.title = t := by rw [← hn]
      refine ⟨by rw [htitle], ?_⟩
      intro hne
      rw [extractTitle, if_pos hne] at ht
      rw [htitle]
      exact Option.some_inj.mp ht.symm

/-- Witness for C9 (amended): a card with no dedicated title and only
short first headings produces no record. -/
theorem extract_news_title_cascade_witness :
    extractNewsFromCard id "" c9EmptyCard [] = none :=
  (extract_news_title_cascade id "" c9EmptyCard []).1.mpr ⟨by decide, by decide⟩

/-!  ## Non-empty-title invariant -/

theorem headingLoop_some_ne_empty (hs : List (String × String)) :
    ∀ (tags : List String) (t : String), headingLoop hs tags = some t → t ≠ "" := by
  intro tags
  induction tags with
  | nil => intro t h; cases h
  | cons tg rest ih =>
    intro t h
    rw [headingLoop] at h
    split at h
    · split at h
      · rename_i txt hft hlen
        have htt : txt = t := Option.some_inj.mp h
        intro he
        rw [he] at htt
        rw [htt] at hlen
        exact absurd hlen (by decide)
      · exact ih t h
    · exact ih t h

theorem extractTitle_some_ne_empty (c : Card) (t : String)
    (h : extractTitle c = some t) : t ≠ "" := by
  rw [extractTitle] at h
  by_cases h0 : c.cardTitle.getD "" = ""
  · rw [if_neg (fun hne => hne h0)] at h
    exact headingLoop_some_ne_empty c.headings _ t h
  · rw [if_pos h0] at h
    have := Option.some_inj.mp h
    rw [← this]
    exact h0

theorem extractNews_title_ne_empty (resolve : String → String) (now : String)
    (c : Card) (idx : List (List Char × String)) (n : NewsItem)
    (h : extractNewsFromCard resolve now c idx = some n) : n.title ≠ "" := by
  rw [extractNewsFromCard] at h
  cases ht : extractTitle c with
  | none => rw [ht] at h; cases h
  | some t =>
    rw [ht] at h
    simp only [Option.some.injEq] at h
    have hnt : n.title = t := by rw [← h]
    rw [hnt]
    exact extractTitle_some_ne_empty c t ht

theorem mem_addIfNewTitle (acc : List NewsItem) (item : Option NewsItem)
    (m : NewsItem) (hm : m ∈ addIfNewTitle acc item) : m ∈ acc ∨ item = some m := by
  cases item with
  | none => exact Or.inl hm
  | some n =>
    rw [addIfNewTitle] at hm
    by_cases hany : acc.any (fun q => q.title = n.title) = true
    · rw [if_pos hany] at hm
      exact Or.inl hm
    · rw [if_neg hany] at hm
      rcases List.mem_append.mp hm with hin | hsing
      · exact Or.inl hin
      · exact Or.inr (by rw [List.mem_singleton.mp hsing])

theorem mem_foldl_addIf (f : Card → Option NewsItem) :
    ∀ (cards : List Card) (acc : List NewsItem) (m : NewsItem),
      m ∈ cards.foldl (fun a c => addIfNewTitle a (f c)) acc →
      m ∈ acc ∨ ∃ c, f c = some m := by
  intro cards
  induction cards with
  | nil => intro acc m hm; exact Or.inl hm
  | cons c rest ih =>
    intro acc m hm
    rw [List.foldl_cons] at hm
    rcases ih (addIfNewTitle acc (f c)) m hm with h | h
    · rcases mem_addIfNewTitle acc (f c) m h with h' | h'
      · exact Or.inl h'
      · exact Or.inr ⟨c, h'⟩
    · exact Or.inr h

theorem mem_collectRow (resolve : String → String) (now : String)
    (idx : List (List Char × String)) (acc : List NewsItem) (row : ContentRow)
    (m : NewsItem) (hm : m ∈ collectRow resolve now idx acc row) :
    m ∈ acc ∨ ∃ c, extractNewsFromCard resolve now c idx = some m := by
  rw [collectRow] at hm
  cases hmc : row.mainCard with
  | none =>
    rw [hmc] at hm
    exact mem_foldl_addIf _ row.secondaryCards acc m hm
  | some c0 =>
    rw [hmc] at hm
    rcases mem_foldl_addIf _ row.secondaryCards _ m hm with h | h
    · rcases mem_addIfNewTitle acc _ m h with h' | h'
      · exact Or.inl h'
      · exact Or.inr ⟨c0, h'⟩
    · exact Or.inr h

theorem mem_foldl_collectRow (resolve : String → String) (now : String)
    (idx : List (List Char × String)) :
    ∀ (rows : List ContentRow) (acc : List NewsItem) (m : NewsItem),
      m ∈ rows.foldl (collectRow resolve now idx) acc →
      m ∈ acc ∨ ∃ c, extractNewsFromCard resolve now c idx = some m := by
  intro rows
  induction rows with
  | nil => intro acc m hm; exact Or.inl hm
  | cons row rest ih =>
    intro acc m hm
    rw [List.foldl_cons] at hm
    rcases ih (collectRow resolve now idx acc row) m hm with h | h
    · exact mem_collectRow resolve now idx acc row m h
    · exact Or.inr h

theorem mem_gatherMainPage (resolve : String → String) (now : String)
    (page : Page) (m : NewsItem) (hm : m ∈ gatherMainPage resolve now page) :
    ∃ c, extractNewsFromCard resolve now c (buildLinkIndex resolve page.anchors) = some m := by
  rcases mem_foldl_collectRow resolve now (buildLinkIndex resolve page.anchors)
      page.contentRows _ m hm with h | h
  · obtain ⟨c, _, hc⟩ := List.mem_filterMap.mp h
    exact ⟨c, hc⟩
  · exact h

theorem collectOne_title (fetchArticle : String → ArticleContent) (n : NewsItem) :
    (collectOne fetchArticle n).title = n.title := by
  rw [collectOne]
  by_cases h : n.url.getD "" = ""
  · rw [if_pos h]
  · rw [if_neg h]
    by_cases hs : (fetchArticle (n.url.getD "")).success = true
    · rw [if_pos hs]
    · rw [if_neg hs]

/-- C10: every record in the news list of a main-page crawl result has
a non-empty title — the card extractor never emits an empty or missing
title, and deduplication and content collection preserve titles. -/
theorem crawl_titles_nonempty (fetch : Nat → Option String) (maxRetries : Nat)
    (parse : String → Page) (resolve : String → String) (now : String)
    (includeContent : Bool) (fetchArticle : String → ArticleContent) :
    ∀ n ∈ (crawlMainPageNews fetch maxRetries parse resolve now includeContent
        fetchArticle).news_list, n.title ≠ "" := by
  intro n hn
  rw [crawlMainPageNews] at hn
  cases hreq : makeRequest fetch maxRetries with
  | none =>
    rw [hreq] at hn
    exact absurd hn (List.not_mem_nil n)
  | some html =>
    rw [hreq] at hn
    have hn' : n ∈ (if includeContent then
        collectArticleContents fetchArticle
          (dedupNews (gatherMainPage resolve now (parse html)))
      else dedupNews (gatherMainPage resolve now (parse html))) := hn
    have hmem : ∃ m ∈ dedupNews (gatherMainPage resolve now (parse html)),
        m.title = n.title := by
      by_cases hic : includeContent = true
      · rw [if_pos hic, collectArticleContents] at hn'
        obtain ⟨m, hm, hmn⟩ := List.mem_map.mp hn'
        exact ⟨m, hm, by rw [← hmn, collectOne_title]⟩
      · rw [if_neg hic] at hn'
        exact ⟨n, hn', rfl⟩
    obtain ⟨m, hm, hmt⟩ := hmem
    have hm' : m ∈ gatherMainPage resolve now (parse html) :=
      (dedupAux_sublist [] _).subset hm
    obtain ⟨c, hc⟩ := mem_gatherMainPage resolve now (parse html) m hm'
    have hne := extractNews_title_ne_empty resolve now c _ m hc
    rw [← hmt]
    exact hne

/-- Witness for C10: a concrete crawl whose news list holds one record,
whose title is non-empty. -/
theorem crawl_titles_nonempty_witness :
    c10Item ∈ (crawlMainPageNews (fun _ => some "html") 3 c10Parse id "t" false
        (fun _ => { success := false })).news_list ∧ c10Item.title ≠ "" :=
  ⟨by decide,
    crawl_titles_nonempty (fun _ => some "html") 3 c10Parse id "t" false
      (fun _ => { success := false }) c10Item (by decide)⟩

/-!  ## Normalization (idempotence) theorems -/

/-- C2 counterexample: on 49 `a`s followed by `" b"` the first
normalization pass yields 49 `a`s and a trailing space (the truncation
to 50 characters cuts right after the space), and the second pass
strips that space — so `normalize ∘ normalize ≠ normalize` there. -/
theorem clean_title_not_idempotent :
    cleanTitleForMatching (cleanTitleForMatching c2Input) ≠
      cleanTitleForMatching c2Input := by
  decide

theorem toLower_toLower (c : Char) : c.toLower.toLower = c.toLower := by
  by_cases h : c.toNat ≥ 65 ∧ c.toNat ≤ 90
  · have h1 : c.toLower = Char.ofNat (c.toNat + 32) := by rw [Char.toLower, if_pos h]
    rw [h1]
    obtain ⟨h65, h90⟩ := h
    generalize c.toNat = n at h65 h90
    interval_cases n <;> decide
  · have h1 : c.toLower = c := by rw [Char.toLower, if_neg h]
    rw [h1, h1]

theorem mem_collapseWS :
    ∀ (l : List Char) (c : Char), c ∈ collapseWS l →
      c = ' ' ∨ (c ∈ l ∧ c.isWhitespace = false) := by
  intro l
  induction l with
  | nil => intro c hc; cases hc
  | cons a rest ih =>
    intro c hc
    cases rest with
    | nil =>
      rw [collapseWS] at hc
      by_cases ha : a.isWhitespace = true
      · rw [if_pos ha] at hc
        exact Or.inl (List.mem_singleton.mp hc)
      · rw [if_neg ha] at hc
        have hca : c = a := List.mem_singleton.mp hc
        refine Or.inr ⟨hca ▸ List.mem_cons_self .., ?_⟩
        rw [hca]
        exact Bool.not_eq_true _ ▸ ha
    | cons a2 t =>
      rw [collapseWS] at hc
      by_cases ha : a.isWhitespace = true
      · rw [if_pos ha] at hc
        by_cases ha2 : a2.isWhitespace = true
        · rw [if_pos ha2] at hc
          rcases ih c hc with h | ⟨hm, hw⟩
          · exact Or.inl h
          · exact Or.inr ⟨List.mem_cons_of_mem _ hm, hw⟩
        · rw [if_neg ha2] at hc
          rcases List.mem_cons.mp hc with h | h
          · exact Or.inl h
          · rcases ih c h with h' | ⟨hm, hw⟩
            · exact Or.inl h'
            · exact Or.inr ⟨List.mem_cons_of_mem _ hm, hw⟩
      · rw [if_neg ha] at hc
        rcases List.mem_cons.mp hc with h | h
        · refine Or.inr ⟨h ▸ List.mem_cons_self .., ?_⟩
          rw [h]
          exact Bool.not_eq_true _ ▸ ha
        · rcases ih c h with h' | ⟨hm, hw⟩
          · exact Or.inl h'
          · exact Or.inr ⟨List.mem_cons_of_mem _ hm, hw⟩

theorem collapseWS_cons_not_ws (c : Char) (t : List Char)
    (h : ¬c.isWhitespace = true) : collapseWS (c :: t) = c :: collapseWS t := by
  cases t with
  | nil => simp [collapseWS, h]
  | cons c2 rest => rw [collapseWS, if_neg h]

theorem chain'_collapseWS : ∀ l : List Char, List.Chain' RWS (collapseWS l) := by
  intro l
  induction l with
  | nil => exact List.chain'_nil
  | cons a rest ih =>
    cases rest with
    | nil =>
      rw [collapseWS]
      by_cases ha : a.isWhitespace = true
      · rw [if_pos ha]
        exact List.chain'_singleton ' '
      · rw [if_neg ha]
        exact List.chain'_singleton a
    | cons a2 t =>
      rw [collapseWS]
      by_cases ha : a.isWhitespace = true
      · rw [if_pos ha]
        by_cases ha2 : a2.isWhitespace = true
        · rw [if_pos ha2]; exact ih
        · rw [if_neg ha2]
          refine List.chain'_cons'.mpr ⟨?_, ih⟩
          intro y hy
          rw [collapseWS_cons_not_ws a2 t ha2] at hy
          have hay : a2 = y := by simpa using hy
          rw [RWS, ← hay]
          intro hcon
          exact ha2 hcon.2
      · rw [if_neg ha]
        refine List.chain'_cons'.mpr ⟨?_, ih⟩
        intro y _
        rw [RWS]
        intro hcon
        exact ha hcon.1

theorem chain'_take {R : Char → Char → Prop} :
    ∀ (l : List Char) (n : Nat), List.Chain' R l → List.Chain' R (l.take n) := by
  intro l
  induction l with
  | nil => intro n _; rw [List.take_nil]; exact List.chain'_nil
  | cons a t ih =>
    intro n h
    cases n with
    | zero => exact List.chain'_nil
    | succ m =>
      rw [List.take_succ_cons]
      refine List.chain'_cons'.mpr ⟨?_, ih m (List.Chain'.tail h)⟩
      intro y hy
      cases t with
      | nil => rw [List.take_nil] at hy; cases hy
      | cons b t' =>
        cases m with
        | zero => rw [List.take_zero] at hy; cases hy
        | succ k =>
          rw [List.take_succ_cons] at hy
          have hby : b = y := by simpa using hy
          rw [← hby]
          exact (List.chain'_cons.mp h).1

theorem chain'_dropWhile {R : Char → Char → Prop} (p : Char → Bool) :
    ∀ l : List Char, List.Chain' R l → List.Chain' R (l.dropWhile p) := by
  intro l
  induction l with
  | nil => intro _; rw [List.dropWhile_nil]; exact List.chain'_nil
  | cons a t ih =>
    intro h
    rw [List.dropWhile_cons]
    by_cases hp : p a = true
    · rw [if_pos hp]
      exact ih (List.Chain'.tail h)
    · rw [if_neg hp]
      exact h

theorem RWS_flip : ∀ m : List Char, List.Chain' (flip RWS) m ↔ List.Chain' RWS m := by
  intro m
  constructor
  · exact List.Chain'.imp fun a b h => fun hc => h ⟨hc.2, hc.1⟩
  · exact List.Chain'.imp fun a b h => fun hc => h ⟨hc.2, hc.1⟩

theorem chain'_rstrip (l : List Char) (h : List.Chain' RWS l) :
    List.Chain' RWS (rstrip l) := by
  rw [rstrip]
  rw [List.chain'_reverse]
  refine (RWS_flip _).mpr ?_
  refine chain'_dropWhile Char.isWhitespace l.reverse ?_
  rw [List.chain'_reverse]
  exact (RWS_flip l).mpr h

theorem dropWhile_head_false (p : Char → Bool) :
    ∀ (l : List Char) (c : Char) (t : List Char),
      l.dropWhile p = c :: t → p c = false := by
  intro l
  induction l with
  | nil => intro c t h; cases h
  | cons a l' ih =>
    intro c t h
    rw [List.dropWhile_cons] at h
    by_cases hp : p a = true
    · rw [if_pos hp] at h
      exact ih c t h
    · rw [if_neg hp] at h
      have : a = c := (List.cons.injEq .. ▸ h).1
      rw [← this]
      exact Bool.not_eq_true _ ▸ hp

theorem dropWhile_eq_append (p : Char → Bool) :
    ∀ l : List Char, ∃ s, s ++ l.dropWhile p = l := by
  intro l
  induction l with
  | nil => exact ⟨[], rfl⟩
  | cons a t ih =>
    rw [List.dropWhile_cons]
    by_cases hp : p a = true
    · rw [if_pos hp]
      obtain ⟨s, hs⟩ := ih
      exact ⟨a :: s, by rw [List.cons_append, hs]⟩
    · rw [if_neg hp]
      exact ⟨[], rfl⟩

theorem rstrip_append : ∀ l : List Char, ∃ t, rstrip l ++ t = l := by
  intro l
  obtain ⟨s, hs⟩ := dropWhile_eq_append Char.isWhitespace l.reverse
  refine ⟨s.reverse, ?_⟩
  rw [rstrip, ← List.reverse_append, hs, List.reverse_reverse]

theorem rstrip_length_le (l : List Char) : (rstrip l).length ≤ l.length := by
  obtain ⟨t, ht⟩ := rstrip_append l
  calc (rstrip l).length ≤ (rstrip l).length + t.length := Nat.le_add_right ..
  _ = l.length := by rw [← List.length_append, ht]

theorem mapIdOn (g : Char → Char) :
    ∀ l : List Char, (∀ c ∈ l, g c = c) → l.map g = l := by
  intro l
  induction l with
  | nil => intro _; rfl
  | cons a t ih =>
    intro h
    rw [List.map_cons, h a (List.mem_cons_self ..),
      ih fun c hc => h c (List.mem_cons_of_mem _ hc)]

theorem collapseWS_eq_self :
    ∀ l : List Char, List.Chain' RWS l →
      (∀ c ∈ l, c.isWhitespace = true → c = ' ') → collapseWS l = l := by
  intro l
  induction l with
  | nil => intro _ _; rfl
  | cons a rest ih =>
    intro hch hsp
    cases rest with
    | nil =>
      rw [collapseWS]
      by_cases ha : a.isWhitespace = true
      · rw [if_pos ha, hsp a (List.mem_cons_self ..) ha]
      · rw [if_neg ha]
    | cons a2 t =>
      rw [collapseWS]
      by_cases ha : a.isWhitespace = true
      · rw [if_pos ha]
        have ha' : a = ' ' := hsp a (List.mem_cons_self ..) ha
        have ha2 : ¬a2.isWhitespace = true := by
          intro hw
          exact (List.chain'_cons.mp hch).1 ⟨ha, hw⟩
        rw [if_neg ha2, ← ha',
          ih (List.Chain'.tail hch) fun c hc hw => hsp c (List.mem_cons_of_mem _ hc) hw]
      · rw [if_neg ha,
          ih (List.Chain'.tail hch) fun c hc hw => hsp c (List.mem_cons_of_mem _ hc) hw]

theorem clean_norm_facts (l : List Char) :
    (∀ c ∈ cleanTitleForMatching l,
        Char.toLower c = c ∧ keepChar c = true ∧ (c.isWhitespace = true → c = ' ')) ∧
      List.Chain' RWS (cleanTitleForMatching l) ∧
      (∃ t, cleanTitleForMatching l ++ t =
        lstrip (collapseWS ((l.map Char.toLower).filter keepChar))) ∧
      (cleanTitleForMatching l).length ≤ 50 := by
  refine ⟨?_, ?_, ?_, ?_⟩
  · intro c hc
    have hc1 : c ∈ pyStrip (collapseWS ((l.map Char.toLower).filter keepChar)) :=
      (List.take_sublist 50 _).subset hc
    rw [pyStrip, rstrip] at hc1
    have hc2 : c ∈ lstrip (collapseWS ((l.map Char.toLower).filter keepChar)) := by
      rw [List.mem_reverse] at hc1
      exact List.mem_reverse.mp ((List.dropWhile_sublist _).subset hc1)
    have hc3 : c ∈ collapseWS ((l.map Char.toLower).filter keepChar) :=
      (List.dropWhile_sublist _).subset hc2
    rcases mem_collapseWS _ c hc3 with hsp | ⟨hmem, hnw⟩
    · rw [hsp]
      exact ⟨by decide, by decide, fun _ => rfl⟩
    · obtain ⟨hmap, hkeep⟩ := List.mem_filter.mp hmem
      obtain ⟨d, _, hd⟩ := List.mem_map.mp hmap
      refine ⟨by rw [← hd, toLower_toLower], hkeep, ?_⟩
      intro hw
      rw [hw] at hnw
      cases hnw
  · refine chain'_take _ 50 ?_
    rw [pyStrip]
    refine chain'_rstrip _ ?_
    rw [lstrip]
    exact chain'_dropWhile _ _ (chain'_collapseWS _)
  · obtain ⟨t2, ht2⟩ :=
      rstrip_append (lstrip (collapseWS ((l.map Char.toLower).filter keepChar)))
    refine ⟨(pyStrip (collapseWS ((l.map Char.toLower).filter keepChar))).drop 50 ++ t2, ?_⟩
    rw [← List.append_assoc]
    rw [cleanTitleForMatching, List.take_append_drop]
    exact ht2
  · rw [cleanTitleForMatching]
    rw [List.length_take]
    exact Nat.min_le_left ..

/-- C2 (amended): the normalizer is not idempotent in general — the
truncation to 50 characters can end right after a space, which a second
pass strips.  Precisely: applying the normalizer twice equals applying
it once and then removing trailing whitespace, so idempotence holds
exactly for inputs whose normalized form does not end in a space. -/
theorem clean_title_twice (l : List Char) :
    cleanTitleForMatching (cleanTitleForMatching l) =
      rstrip (cleanTitleForMatching l) := by
  obtain ⟨helem, hchain, ⟨t, ht⟩, hlen⟩ := clean_norm_facts l
  have hmap : (cleanTitleForMatching l).map Char.toLower = cleanTitleForMatching l :=
    mapIdOn _ _ fun c hc => (helem c hc).1
  have hfil : ((cleanTitleForMatching l).map Char.toLower).filter keepChar =
      cleanTitleForMatching l := by
    rw [hmap]
    exact List.filter_eq_self.mpr fun c hc => (helem c hc).2.1
  have hcol : collapseWS (cleanTitleForMatching l) = cleanTitleForMatching l :=
    collapseWS_eq_self _ hchain fun c hc => (helem c hc).2.2
  have hls : lstrip (cleanTitleForMatching l) = cleanTitleForMatching l := by
    cases hyc : cleanTitleForMatching l with
    | nil => rfl
    | cons c y' =>
      rw [hyc, List.cons_append] at ht
      have hcw : Char.isWhitespace c = false :=
        dropWhile_head_false Char.isWhitespace _ c (y' ++ t) ht.symm
      rw [lstrip, List.dropWhile_cons, if_neg (by rw [hcw]; exact Bool.false_ne_true)]
  conv_lhs => rw [cleanTitleForMatching, hfil, hcol, pyStrip, hls]
  exact List.take_of_length_le (Nat.le_trans (rstrip_length_le _) hlen)

end NewsCrawler
